import Mathlib

/-!
# Tree ECDH (`pkg/tree_ecdh/tree_ecdh.go`)

A shallow embedding of the Go package `tree_ecdh` and proofs about it.

* `*big.Int` values are modelled as `Int`.
* `ec.ElCPoint` (package `elliptic-wrapper`, not part of this repository) is a
  pair of coordinates; the operations the package calls on it
  (`ec.ScalarMult`, `ec.BasePointGGet`, `ec.IsOnCurveCheck`) and the order
  `elliptic.P521().Params().N` are the fields of a `Curve`, over which every
  definition is parametric.
* A Go result `(value, error)` is an `Except String _`; `GenerateKeypairResult` also gives
  the three results of `GenerateKeypair` as Go returns them.
* Two instances of `Curve` are used to evaluate the definitions: a curve of order 19 over
  `𝔽₁₇` (`toyCurve`) and NIST P-521 (`p521`).
* `GenerateTreeKeypair` is given twice: over a list of node values, and, with the pointers of
  `[]*TreeNode` explicit, over a heap (`GenerateTreeKeypairH`); the second refines the first.
-/

namespace TreeEcdh

/-- Affine point `ec.ElCPoint`; the package reads its coordinate `X`. -/
structure ElCPoint where
  X : Int
  Y : Int
  deriving DecidableEq, Repr

/-- The curve arithmetic used by the package: `N` is `elliptic.P521().Params().N`,
the other fields are `ec.ScalarMult`, `ec.BasePointGGet` and `ec.IsOnCurveCheck`. -/
structure Curve where
  N : Int
  ScalarMult : Int → ElCPoint → ElCPoint
  BasePointGGet : ElCPoint
  IsOnCurveCheck : ElCPoint → Bool

/-- Go `type TreeNode struct { PrivateKey *big.Int; PublicKey ec.ElCPoint }`. -/
structure TreeNode where
  PrivateKey : Int
  PublicKey : ElCPoint
  deriving DecidableEq, Repr

deriving instance DecidableEq for Except

/-- Go `GenerateKeypair`; `drawn` is the result of `rand.Int(rand.Reader, basePointOrder)`. -/
def GenerateKeypair (c : Curve) (drawn : Except String Int) : Except String (Int × ElCPoint) :=
  match drawn with
  | .error err => .error err
  | .ok privateKey =>
    if privateKey = 0 then
      .error "private key is zero"
    else
      let publicKey := c.ScalarMult privateKey c.BasePointGGet
      if !c.IsOnCurveCheck publicKey then
        .error "public key is not on curve"
      else
        .ok (privateKey, publicKey)

/-- Go's three results of `GenerateKeypair`: `privateKey` (`none` is `nil`), `publicKey`
(`none` is the zero value `ec.ElCPoint{}`) and `err` (`none` is `nil`). -/
structure KeypairResult where
  privateKey : Option Int
  publicKey : Option ElCPoint
  err : Option String
  deriving DecidableEq, Repr

/-- Go `GenerateKeypair` with its three results written out, return statement by return
statement; `drawn` is the result of `rand.Int(rand.Reader, basePointOrder)`. -/
def GenerateKeypairResult (c : Curve) (drawn : Except String Int) : KeypairResult :=
  match drawn with
  | .error err => { privateKey := none, publicKey := none, err := some err }
  | .ok privateKey =>
    if privateKey = 0 then
      { privateKey := none, publicKey := none, err := some "private key is zero" }
    else
      let publicKey := c.ScalarMult privateKey c.BasePointGGet
      if !c.IsOnCurveCheck publicKey then
        { privateKey := none, publicKey := none, err := some "public key is not on curve" }
      else
        { privateKey := some privateKey, publicKey := some publicKey, err := none }

/-- Go `GenerateSharedSecret`: the `X` coordinate of `privateKey · publicKey`. -/
def GenerateSharedSecret (c : Curve) (privateKey : Int) (publicKey : ElCPoint) : Int :=
  let sharedPoint := c.ScalarMult privateKey publicKey
  sharedPoint.X

/-- The pairing loop of `GenerateTreeKeypair` (`for ; i < len(nodes)-1; i += 2`), started at
index `i` with the accumulated `nextLevel`; returns the final `i` and `nextLevel`. -/
def pairLoop (c : Curve) (nodes : List TreeNode) (i : Nat) (nextLevel : List TreeNode) :
    Nat × List TreeNode :=
  if h : i < nodes.length - 1 then
    let left := nodes[i]
    let right := nodes[i + 1]
    let sharedSecret := GenerateSharedSecret c left.PrivateKey right.PublicKey
    let publicKey := c.ScalarMult sharedSecret c.BasePointGGet
    pairLoop c nodes (i + 2) (nextLevel ++ [{ PrivateKey := sharedSecret, PublicKey := publicKey }])
  else
    (i, nextLevel)
termination_by nodes.length - i
decreasing_by omega

/-- The list `nextLevel` that `GenerateTreeKeypair` recurses on: the pairing loop from
`i = 0` with an empty list, then `if i < len(nodes) { nextLevel = append(nextLevel, nodes[i]) }`. -/
def nextLevel (c : Curve) (nodes : List TreeNode) : List TreeNode :=
  let r := pairLoop c nodes 0 []
  if h : r.1 < nodes.length then r.2 ++ [nodes[r.1]] else r.2

/-- The node a pair `(left, right)` is replaced by: the body of the pairing loop. -/
def combine (c : Curve) (left right : TreeNode) : TreeNode :=
  let sharedSecret := GenerateSharedSecret c left.PrivateKey right.PublicKey
  { PrivateKey := sharedSecret, PublicKey := c.ScalarMult sharedSecret c.BasePointGGet }

/-- Structural description of one reduction round: adjacent pairs are combined left to
right and an unpaired last node is kept.  `nextLevel_eq_pairUp` shows that the loop
computes it. -/
def pairUp (c : Curve) : List TreeNode → List TreeNode
  | left :: right :: rest => combine c left right :: pairUp c rest
  | [n] => [n]
  | [] => []

theorem pairUp_length (c : Curve) : ∀ l : List TreeNode, (pairUp c l).length = (l.length + 1) / 2
  | [] => by simp [pairUp]
  | [_] => by simp [pairUp]
  | _ :: _ :: rest => by
    simp only [pairUp, List.length_cons, pairUp_length c rest]
    omega

theorem pairLoop_spec (c : Curve) (nodes : List TreeNode) (i : Nat) (acc : List TreeNode)
    (hi : i ≤ nodes.length) :
    (if h : (pairLoop c nodes i acc).1 < nodes.length
      then (pairLoop c nodes i acc).2 ++ [nodes[(pairLoop c nodes i acc).1]]
      else (pairLoop c nodes i acc).2) = acc ++ pairUp c (nodes.drop i) := by
  induction i, acc using pairLoop.induct c nodes with
  | case1 i acc h left right sharedSecret publicKey ih =>
    rw [pairLoop, dif_pos h]
    simp only []
    rw [ih (by omega)]
    have h1 : i < nodes.length := by omega
    have h2 : i + 1 < nodes.length := by omega
    have e : nodes.drop i = nodes[i] :: nodes[i + 1] :: nodes.drop (i + 2) := by
      rw [List.drop_eq_getElem_cons h1, List.drop_eq_getElem_cons h2]
    rw [e, pairUp, List.append_assoc]
    rfl
  | case2 i acc h =>
    rw [pairLoop, dif_neg h]
    simp only []
    by_cases h1 : i < nodes.length
    · rw [dif_pos h1]
      have e : nodes.drop i = [nodes[i]] := by
        rw [List.drop_eq_getElem_cons h1, List.drop_of_length_le (by omega)]
      rw [e, pairUp]
    · rw [dif_neg h1, List.drop_of_length_le (by omega), pairUp, List.append_nil]

theorem nextLevel_eq_pairUp (c : Curve) (nodes : List TreeNode) :
    nextLevel c nodes = pairUp c nodes := by
  have h := pairLoop_spec c nodes 0 [] (Nat.zero_le _)
  simpa [nextLevel] using h

theorem nextLevel_length (c : Curve) (nodes : List TreeNode) :
    (nextLevel c nodes).length = (nodes.length + 1) / 2 := by
  rw [nextLevel_eq_pairUp, pairUp_length]

/-- Go `GenerateTreeKeypair`. -/
def GenerateTreeKeypair (c : Curve) (nodes : List TreeNode) : Except String Int :=
  if nodes.length = 0 then
    .error "empty node list"
  else if h1 : nodes.length = 1 then
    .ok nodes[0].PrivateKey
  else
    GenerateTreeKeypair c (nextLevel c nodes)
termination_by nodes.length
decreasing_by
  rw [nextLevel_length]
  omega

/-! ## The same code over a heap of nodes

`nodes []*TreeNode` is a slice of pointers.  Here the pointers are explicit: a heap is the
list of allocated `TreeNode` values, a pointer is an index into it, and `&TreeNode{…}`
allocates at the end.  Dereferencing a pointer outside the heap (a nil pointer) is the
result `none`. -/

/-- The allocated `TreeNode` values, addressed by index. -/
abbrev Heap := List TreeNode

/-- The pairing loop of `GenerateTreeKeypair` over the heap: returns the final `i`, the heap
after the allocations and `nextLevel`. -/
def pairLoopH (c : Curve) (nodes : List Nat) (i : Nat) (heap : Heap) (nextLevel : List Nat) :
    Option (Nat × Heap × List Nat) :=
  if h : i < nodes.length - 1 then
    match heap[nodes[i]]?, heap[nodes[i + 1]]? with
    | some left, some right =>
      let sharedSecret := GenerateSharedSecret c left.PrivateKey right.PublicKey
      let publicKey := c.ScalarMult sharedSecret c.BasePointGGet
      pairLoopH c nodes (i + 2) (heap ++ [{ PrivateKey := sharedSecret, PublicKey := publicKey }])
        (nextLevel ++ [heap.length])
    | _, _ => none
  else
    some (i, heap, nextLevel)
termination_by nodes.length - i
decreasing_by omega

/-- The slice `nextLevel` over the heap: the pairing loop, then the carried pointer
`nodes[i]` when `i < len(nodes)`. -/
def nextLevelH (c : Curve) (heap : Heap) (nodes : List Nat) : Option (Heap × List Nat) :=
  match pairLoopH c nodes 0 heap [] with
  | none => none
  | some (i, heap1, nl) => if h : i < nodes.length then some (heap1, nl ++ [nodes[i]]) else some (heap1, nl)


theorem pairLoopH_length (c : Curve) (nodes : List Nat) (i : Nat) (heap : Heap) (acc : List Nat) :
    ∀ (j : Nat) (heap1 : Heap) (out : List Nat), pairLoopH c nodes i heap acc = some (j, heap1, out) →
      i ≤ nodes.length →
      j ≤ nodes.length ∧
        out.length + (if j < nodes.length then 1 else 0) = acc.length + (nodes.length - i + 1) / 2 := by
  induction i, heap, acc using pairLoopH.induct c nodes with
  | case1 i heap acc h left right hl hr sharedSecret publicKey ih =>
    intro j heap1 out hres hi
    rw [pairLoopH, dif_pos h, hl, hr] at hres
    have := ih j heap1 out hres (by omega)
    simp only [List.length_append, List.length_singleton] at this
    refine ⟨this.1, ?_⟩
    omega
  | case2 i heap acc h hno =>
    intro j heap1 out hres hi
    rw [pairLoopH, dif_pos h] at hres
    split at hres
    · rename_i l r hl hr
      exact (hno l r hl hr).elim
    · cases hres
  | case3 i heap acc h =>
    intro j heap1 out hres hi
    rw [pairLoopH, dif_neg h] at hres
    simp only [Option.some.injEq, Prod.mk.injEq] at hres
    obtain ⟨rfl, rfl, rfl⟩ := hres
    refine ⟨hi, ?_⟩
    split <;> omega

theorem nextLevelH_length (c : Curve) (heap heap1 : Heap) (nodes nl : List Nat)
    (h : nextLevelH c heap nodes = some (heap1, nl)) : nl.length = (nodes.length + 1) / 2 := by
  unfold nextLevelH at h
  split at h
  · cases h
  · rename_i j heap2 out hres
    have hlen := pairLoopH_length c nodes 0 heap [] j heap2 out hres (Nat.zero_le _)
    split at h
    · rename_i hj
      simp only [Option.some.injEq, Prod.mk.injEq] at h
      obtain ⟨_, rfl⟩ := h
      simp only [hj, if_true, List.length_nil] at hlen
      simp only [List.length_append, List.length_singleton]
      omega
    · rename_i hj
      simp only [Option.some.injEq, Prod.mk.injEq] at h
      obtain ⟨_, rfl⟩ := h
      simp only [hj, if_false, List.length_nil] at hlen
      omega

/-- Go `GenerateTreeKeypair` over the heap: returns the heap after the call and the result. -/
def GenerateTreeKeypairH (c : Curve) (heap : Heap) (nodes : List Nat) :
    Option (Heap × Except String Int) :=
  if nodes.length = 0 then
    some (heap, .error "empty node list")
  else if h1 : nodes.length = 1 then
    match heap[nodes[0]]? with
    | some n => some (heap, .ok n.PrivateKey)
    | none => none
  else
    match h : nextLevelH c heap nodes with
    | none => none
    | some (heap1, nl) => GenerateTreeKeypairH c heap1 nl
termination_by nodes.length
decreasing_by
  rw [nextLevelH_length c heap heap1 nodes nl h]
  omega

/-- The nodes a slice of pointers points to. -/
def deref (heap : Heap) (ptrs : List Nat) : List TreeNode :=
  ptrs.map (fun p => heap.getD p ⟨0, ⟨0, 0⟩⟩)

/-- Every pointer of the slice is allocated. -/
def ValidPtrs (heap : Heap) (ptrs : List Nat) : Prop := ∀ p ∈ ptrs, p < heap.length



instance (heap : Heap) (ptrs : List Nat) : Decidable (ValidPtrs heap ptrs) := by
  unfold ValidPtrs; infer_instance

/-! ## A small concrete curve

The group of order 19 generated by `G = (5, 1)` on `y² = x³ + 2x + 2` over `𝔽₁₇`.  The point
at infinity is written `(0, 0)`, which is not on the curve.  It is the instance of `Curve`
on which the definitions are evaluated. -/

/-- The multiples `0·G, 1·G, …, 18·G` of `G = (5, 1)`. -/
def toyTable : List ElCPoint :=
  [⟨0, 0⟩, ⟨5, 1⟩, ⟨6, 3⟩, ⟨10, 6⟩, ⟨3, 1⟩, ⟨9, 16⟩, ⟨16, 13⟩, ⟨0, 6⟩, ⟨13, 7⟩, ⟨7, 6⟩,
   ⟨7, 11⟩, ⟨13, 10⟩, ⟨0, 11⟩, ⟨16, 4⟩, ⟨9, 1⟩, ⟨3, 16⟩, ⟨10, 11⟩, ⟨6, 14⟩, ⟨5, 16⟩]

/-- Index of a point in `toyTable` (its discrete logarithm), `19` for any other point. -/
def toyLog (P : ElCPoint) : Nat := toyTable.indexOf P

/-- Scalar multiplication in the group of `toyTable`; a point outside the group is sent to
the point at infinity. -/
def toyScalarMult (k : Int) (P : ElCPoint) : ElCPoint :=
  if toyLog P < 19 then toyTable.getD ((k * (toyLog P : Int)) % 19).toNat ⟨0, 0⟩ else ⟨0, 0⟩

/-- Curve equation `y² = x³ + 2x + 2` over `𝔽₁₇`. -/
def toyIsOnCurve (P : ElCPoint) : Bool :=
  decide (0 ≤ P.X ∧ P.X < 17 ∧ 0 ≤ P.Y ∧ P.Y < 17 ∧
    (P.Y * P.Y) % 17 = (P.X * P.X * P.X + 2 * P.X + 2) % 17)

/-- Chord-and-tangent addition on `y² = x³ + 2x + 2` over `𝔽₁₇`, used to check `toyTable`. -/
def toyAdd (P Q : ElCPoint) : ElCPoint :=
  if P = ⟨0, 0⟩ then Q
  else if Q = ⟨0, 0⟩ then P
  else if P.X = Q.X ∧ (P.Y + Q.Y) % 17 = 0 then ⟨0, 0⟩
  else
    let lam :=
      if P = Q then ((3 * P.X * P.X + 2) * ((2 * P.Y) ^ 15 % 17)) % 17
      else ((Q.Y - P.Y) * ((Q.X - P.X) ^ 15 % 17)) % 17
    let x := (lam * lam - P.X - Q.X) % 17
    ⟨x, (lam * (P.X - x) - P.Y) % 17⟩

/-- The concrete curve. -/
def toyCurve : Curve where
  N := 19
  ScalarMult := toyScalarMult
  BasePointGGet := ⟨5, 1⟩
  IsOnCurveCheck := toyIsOnCurve

/-! ## The curve P-521

`GenerateKeypair` takes the order `N` from `elliptic.P521()`.  This is that curve, with its
standard parameters and affine chord-and-tangent arithmetic; the point at infinity is
written `(0, 0)`. -/

/-- The prime `2^521 - 1` of the field of P-521. -/
def p521P : Int :=
  0x1ffffffffffffffffffffffffffffffffffffffffffffffffffffffffffffffffffffffffffffffffffffffffffffffffffffffffffffffffffffffffffffffffff

/-- The coefficient `b` of P-521, `y² = x³ - 3x + b`. -/
def p521B : Int :=
  0x51953eb9618e1c9a1f929a21a0b68540eea2da725b99b315f3b8b489918ef109e156193951ec7e937b1652c0bd3bb1bf073573df883d2c34f1ef451fd46b503f00

/-- The order of the base point of P-521 (`elliptic.P521().Params().N`). -/
def p521N : Int :=
  0x1fffffffffffffffffffffffffffffffffffffffffffffffffffffffffffffffffa51868783bf2f966b7fcc0148f709a5d03bb5c9b8899c47aebb6fb71e91386409

/-- The base point of P-521. -/
def p521G : ElCPoint :=
  ⟨0xc6858e06b70404e9cd9e3ecb662395b4429c648139053fb521f828af606b4d3dbaa14b5e77efe75928fe1dc127a2ffa8de3348b3c1856a429bf97e7e31c2e5bd66,
   0x11839296a789a3bc0045c8a5fb42c7d1bd998f54449579b446817afbd17273e662c97ee72995ef42640c550b9013fad0761353c7086a272c24088be94769fd16650⟩

/-- Curve equation of P-521. -/
def p521IsOnCurve (P : ElCPoint) : Bool :=
  decide (0 ≤ P.X ∧ P.X < p521P ∧ 0 ≤ P.Y ∧ P.Y < p521P ∧
    (P.Y * P.Y) % p521P = (P.X * P.X * P.X - 3 * P.X + p521B) % p521P)

/-- Square-and-multiply `a ^ e mod p`; the first argument bounds the number of steps. -/
def p521PowMod : Nat → Int → Nat → Int
  | 0, _, _ => 1
  | fuel + 1, a, e =>
    if e = 0 then 1
    else
      let h := p521PowMod fuel ((a * a) % p521P) (e / 2)
      if e % 2 = 1 then (a * h) % p521P else h

/-- Inverse modulo the field prime, `a ^ (p - 2)`. -/
def p521Inv (a : Int) : Int :=
  p521PowMod 521 (a % p521P) (p521P - 2).toNat

/-- Chord-and-tangent addition on P-521; the point at infinity is written `(0, 0)`. -/
def p521Add (P Q : ElCPoint) : ElCPoint :=
  if P = ⟨0, 0⟩ then Q
  else if Q = ⟨0, 0⟩ then P
  else if P.X = Q.X ∧ (P.Y + Q.Y) % p521P = 0 then ⟨0, 0⟩
  else
    let lam :=
      if P = Q then ((3 * P.X * P.X - 3) * p521Inv (2 * P.Y)) % p521P
      else ((Q.Y - P.Y) * p521Inv (Q.X - P.X)) % p521P
    let x := (lam * lam - P.X - Q.X) % p521P
    ⟨x, (lam * (P.X - x) - P.Y) % p521P⟩

/-- Double-and-add `k·P`, low bit first; the first argument bounds the number of steps. -/
def p521MulNat : Nat → Nat → ElCPoint → ElCPoint
  | 0, _, _ => ⟨0, 0⟩
  | fuel + 1, k, P =>
    if k = 0 then ⟨0, 0⟩
    else p521Add (if k % 2 = 1 then P else ⟨0, 0⟩) (p521MulNat fuel (k / 2) (p521Add P P))

/-- Scalar multiplication on P-521. -/
def p521ScalarMult (k : Int) (P : ElCPoint) : ElCPoint :=
  p521MulNat k.toNat k.toNat P

/-- The curve NIST P-521. -/
def p521 : Curve where
  N := p521N
  ScalarMult := p521ScalarMult
  BasePointGGet := p521G
  IsOnCurveCheck := p521IsOnCurve

/-- A point of P-521 with `X = 0`. -/
def p521ZeroX : ElCPoint :=
  ⟨0, 0x12df13601594a883ef2d935e44bb90bf4d6619b74e52af7552f97769011c0719eb439cfab2a88d40fe59a2bed1f43557169a2d0a2ccd280c607b92bbf51ffe0b078⟩

/-- A point of P-521 with `X = N + 1`, above the order of the base point. -/
def p521LargeX : ElCPoint :=
  ⟨0x1fffffffffffffffffffffffffffffffffffffffffffffffffffffffffffffffffa51868783bf2f966b7fcc0148f709a5d03bb5c9b8899c47aebb6fb71e9138640a,
   0x15c0208e578fd60af518df71031fbef12ced63df0aebf52d4a67eb460f7907f4e77748ed5dfa44f49035bad05d07d119cae1e855c8a9723eaff862aa896fbae2a8d⟩


/-- Both coordinates are reduced modulo the field prime of P-521. -/
def p521Reduced (P : ElCPoint) : Prop :=
  0 ≤ P.X ∧ P.X < p521P ∧ 0 ≤ P.Y ∧ P.Y < p521P

/-- A node is a keypair when its public key is its private key times the base point. -/
def IsKeypair (c : Curve) (n : TreeNode) : Prop :=
  n.PublicKey = c.ScalarMult n.PrivateKey c.BasePointGGet

instance (c : Curve) (n : TreeNode) : Decidable (IsKeypair c n) := by
  unfold IsKeypair; infer_instance

/-- Scalar multiplications of the base point commute: `a·(b·G) = b·(a·G)`. -/
def ScalarMultCommutes (c : Curve) : Prop :=
  ∀ a b : Int, c.ScalarMult a (c.ScalarMult b c.BasePointGGet) =
    c.ScalarMult b (c.ScalarMult a c.BasePointGGet)

/-- Six keypairs on the concrete curve, with private keys `1, 1, 1, 1, 1, 2`
(`1·G = (5, 1)`, `2·G = (6, 3)`). -/
def toyNodes6 : List TreeNode :=
  [⟨1, ⟨5, 1⟩⟩, ⟨1, ⟨5, 1⟩⟩, ⟨1, ⟨5, 1⟩⟩, ⟨1, ⟨5, 1⟩⟩, ⟨1, ⟨5, 1⟩⟩, ⟨2, ⟨6, 3⟩⟩]

/-- Four keypairs on the concrete curve, with private keys `1, 2, 3, 4`. -/
def toyNodes4 : List TreeNode :=
  [⟨1, ⟨5, 1⟩⟩, ⟨2, ⟨6, 3⟩⟩, ⟨3, ⟨10, 6⟩⟩, ⟨4, ⟨3, 1⟩⟩]

/-- Five keypairs on the concrete curve, with private keys `1, 2, 3, 4, 5`. -/
def toyNodes5 : List TreeNode :=
  [⟨1, ⟨5, 1⟩⟩, ⟨2, ⟨6, 3⟩⟩, ⟨3, ⟨10, 6⟩⟩, ⟨4, ⟨3, 1⟩⟩, ⟨5, ⟨9, 16⟩⟩]

/-- Eight keypairs on the concrete curve, with private keys `1, …, 8`. -/
def toyNodes8 : List TreeNode :=
  [⟨1, ⟨5, 1⟩⟩, ⟨2, ⟨6, 3⟩⟩, ⟨3, ⟨10, 6⟩⟩, ⟨4, ⟨3, 1⟩⟩, ⟨5, ⟨9, 16⟩⟩, ⟨6, ⟨16, 13⟩⟩,
   ⟨7, ⟨0, 6⟩⟩, ⟨8, ⟨13, 7⟩⟩]

/-- Three keypairs on the concrete curve, with private keys `1, 1, 2`. -/
def toyNodes3 : List TreeNode :=
  [⟨1, ⟨5, 1⟩⟩, ⟨1, ⟨5, 1⟩⟩, ⟨2, ⟨6, 3⟩⟩]

/-- Evaluation of `GenerateTreeKeypair` by iterating `pairUp` at most `k` times;
`GenerateTreeKeypair_eq_reduceRounds` shows that `k + 1 ≥ len(nodes)` rounds give the result
of `GenerateTreeKeypair`, so the branch "out of rounds" is not reached then. -/
def reduceRounds (c : Curve) : Nat → List TreeNode → Except String Int
  | _, [] => .error "empty node list"
  | _, [n] => .ok n.PrivateKey
  | 0, _ :: _ :: _ => .error "out of rounds"
  | k + 1, l => reduceRounds c k (pairUp c l)


/-! ## Unfolding lemmas -/

theorem GenerateTreeKeypair_nil (c : Curve) :
    GenerateTreeKeypair c [] = .error "empty node list" := by
  rw [GenerateTreeKeypair]
  simp

theorem GenerateTreeKeypair_single (c : Curve) (n : TreeNode) :
    GenerateTreeKeypair c [n] = .ok n.PrivateKey := by
  rw [GenerateTreeKeypair]
  simp

theorem GenerateTreeKeypair_step (c : Curve) (nodes : List TreeNode) (h : 2 ≤ nodes.length) :
    GenerateTreeKeypair c nodes = GenerateTreeKeypair c (nextLevel c nodes) := by
  rw [GenerateTreeKeypair]
  have h0 : ¬ nodes.length = 0 := by omega
  have h1 : ¬ nodes.length = 1 := by omega
  rw [if_neg h0, dif_neg h1]

theorem GenerateTreeKeypair_pairUp (c : Curve) (nodes : List TreeNode) :
    GenerateTreeKeypair c nodes = GenerateTreeKeypair c (pairUp c nodes) := by
  match nodes with
  | [] => simp [pairUp]
  | [n] => simp [pairUp]
  | a :: b :: rest =>
    rw [GenerateTreeKeypair_step c (a :: b :: rest) (by simp), nextLevel_eq_pairUp]

theorem GenerateTreeKeypair_eq_reduceRounds (c : Curve) :
    ∀ (k : Nat) (nodes : List TreeNode), nodes.length ≤ k + 1 →
      GenerateTreeKeypair c nodes = reduceRounds c k nodes := by
  intro k
  induction k with
  | zero =>
    intro nodes h
    match nodes, h with
    | [], _ => simp [reduceRounds, GenerateTreeKeypair_nil]
    | [n], _ => simp [reduceRounds, GenerateTreeKeypair_single]
  | succ k ih =>
    intro nodes h
    match nodes, h with
    | [], _ => simp [reduceRounds, GenerateTreeKeypair_nil]
    | [n], _ => simp [reduceRounds, GenerateTreeKeypair_single]
    | a :: b :: rest, h =>
      rw [GenerateTreeKeypair_pairUp, reduceRounds]
      rotate_left
      · intro h0; cases h0
      · intro n h0; cases h0
      apply ih
      rw [pairUp_length]
      simp only [List.length_cons] at h ⊢
      omega

/-! ## One reduction round -/

theorem pairUp_get_pair (c : Curve) :
    ∀ (l : List TreeNode) (j : Nat) (a b : TreeNode), l[2 * j]? = some a →
      l[2 * j + 1]? = some b → (pairUp c l)[j]? = some (combine c a b)
  | [], j, a, b, ha, _ => by simp at ha
  | [n], j, a, b, _, hb => by simp at hb
  | x :: y :: rest, 0, a, b, ha, hb => by
    simp only [Nat.mul_zero, List.getElem?_cons_zero, Option.some.injEq] at ha
    simp only [Nat.mul_zero, Nat.zero_add, List.getElem?_cons_succ, List.getElem?_cons_zero,
      Option.some.injEq] at hb
    simp [pairUp, ha, hb]
  | x :: y :: rest, j + 1, a, b, ha, hb => by
    have e1 : 2 * (j + 1) = 2 * j + 1 + 1 := by omega
    have e2 : 2 * (j + 1) + 1 = 2 * j + 1 + 1 + 1 := by omega
    rw [e1, List.getElem?_cons_succ, List.getElem?_cons_succ] at ha
    rw [e2, List.getElem?_cons_succ, List.getElem?_cons_succ] at hb
    rw [pairUp, List.getElem?_cons_succ]
    exact pairUp_get_pair c rest j a b ha hb

theorem pairUp_get_carry (c : Curve) :
    ∀ (l : List TreeNode) (j : Nat) (a : TreeNode), l.length = 2 * j + 1 →
      l[2 * j]? = some a → (pairUp c l)[j]? = some a
  | [], j, a, hl, _ => by simp at hl
  | [n], j, a, hl, ha => by
    have hj : j = 0 := by simp only [List.length_singleton] at hl; omega
    subst hj
    simpa [pairUp] using ha
  | x :: y :: rest, 0, a, hl, _ => by simp at hl
  | x :: y :: rest, j + 1, a, hl, ha => by
    have e1 : 2 * (j + 1) = 2 * j + 1 + 1 := by omega
    rw [e1, List.getElem?_cons_succ, List.getElem?_cons_succ] at ha
    rw [pairUp, List.getElem?_cons_succ]
    refine pairUp_get_carry c rest j a ?_ ha
    simp only [List.length_cons] at hl
    omega

theorem pairUp_append_even (c : Curve) :
    ∀ (xs ys : List TreeNode), xs.length % 2 = 0 →
      pairUp c (xs ++ ys) = pairUp c xs ++ pairUp c ys
  | [], ys, _ => by simp [pairUp]
  | [n], ys, h => by simp at h
  | x :: y :: rest, ys, h => by
    have h2 : rest.length % 2 = 0 := by simp only [List.length_cons] at h; omega
    have ih := pairUp_append_even c rest ys h2
    show pairUp c (x :: y :: (rest ++ ys)) = pairUp c (x :: y :: rest) ++ pairUp c ys
    rw [pairUp, pairUp, ih, List.cons_append]

theorem pairUp_keypairs (c : Curve) :
    ∀ l : List TreeNode, (∀ n ∈ l, IsKeypair c n) → ∀ n ∈ pairUp c l, IsKeypair c n
  | [], _, n, hn => by simp [pairUp] at hn
  | [m], h, n, hn => by
    simp only [pairUp] at hn
    exact h n hn
  | x :: y :: rest, h, n, hn => by
    simp only [pairUp, List.mem_cons] at hn
    rcases hn with hn | hn
    · subst hn
      rfl
    · exact pairUp_keypairs c rest (fun m hm => h m (by simp [hm])) n hn

theorem combine_comm (c : Curve) (hc : ScalarMultCommutes c) (a b : TreeNode)
    (ha : IsKeypair c a) (hb : IsKeypair c b) : combine c a b = combine c b a := by
  unfold IsKeypair at ha hb
  have h : GenerateSharedSecret c a.PrivateKey b.PublicKey =
      GenerateSharedSecret c b.PrivateKey a.PublicKey := by
    unfold GenerateSharedSecret
    rw [ha, hb, hc a.PrivateKey b.PrivateKey]
  simp only [combine, h]

theorem pairUp_reverse (c : Curve) (hc : ScalarMultCommutes c) :
    ∀ l : List TreeNode, l.length % 2 = 0 → (∀ n ∈ l, IsKeypair c n) →
      pairUp c l.reverse = (pairUp c l).reverse
  | [], _, _ => by simp [pairUp]
  | [n], h, _ => by simp at h
  | x :: y :: rest, h, hk => by
    have h2 : rest.length % 2 = 0 := by simp only [List.length_cons] at h; omega
    have hx : IsKeypair c x := hk x (by simp)
    have hy : IsKeypair c y := hk y (by simp)
    have ih := pairUp_reverse c hc rest h2 (fun m hm => hk m (by simp [hm]))
    have e : (x :: y :: rest).reverse = rest.reverse ++ [y, x] := by simp
    rw [e, pairUp_append_even c _ _ (by simpa using h2), ih]
    simp [pairUp, combine_comm c hc y x hy hx]

theorem GenerateTreeKeypair_reverse_pow2 (c : Curve) (hc : ScalarMultCommutes c) :
    ∀ (k : Nat) (l : List TreeNode), l.length = 2 ^ k → (∀ n ∈ l, IsKeypair c n) →
      GenerateTreeKeypair c l.reverse = GenerateTreeKeypair c l := by
  intro k
  induction k with
  | zero =>
    intro l hl _
    match l, hl with
    | [n], _ => rfl
  | succ k ih =>
    intro l hl hk
    have hev : l.length % 2 = 0 := by rw [hl, Nat.pow_succ]; omega
    rw [GenerateTreeKeypair_pairUp c l.reverse, GenerateTreeKeypair_pairUp c l,
      pairUp_reverse c hc l hev hk]
    apply ih _ _ (pairUp_keypairs c l hk)
    rw [pairUp_length, hl, Nat.pow_succ]
    omega

/-! ## The concrete curve satisfies the group law -/

theorem toyLog_table : ∀ m : Fin 19, toyLog (toyTable.getD m.val ⟨0, 0⟩) = m.val := by
  decide

theorem toyTable_add : ∀ m : Fin 19,
    toyAdd (toyTable.getD m.val ⟨0, 0⟩) ⟨5, 1⟩ = toyTable.getD ((m.val + 1) % 19) ⟨0, 0⟩ := by
  decide

theorem toyTable_onCurve : ∀ m : Fin 19,
    toyIsOnCurve (toyTable.getD m.val ⟨0, 0⟩) = decide (m.val ≠ 0) := by
  decide

theorem toyScalarMult_table (a : Int) (m : Nat) (hm : m < 19) :
    toyScalarMult a (toyTable.getD m ⟨0, 0⟩) =
      toyTable.getD ((a * (m : Int)) % 19).toNat ⟨0, 0⟩ := by
  have h := toyLog_table ⟨m, hm⟩
  simp only at h
  simp only [toyScalarMult, h, hm, if_true]

theorem toyScalarMult_base (b : Int) :
    toyScalarMult b ⟨5, 1⟩ = toyTable.getD (b % 19).toNat ⟨0, 0⟩ := by
  have h := toyScalarMult_table b 1 (by decide)
  simpa [toyTable] using h

theorem toyScalarMult_mul (a b : Int) :
    toyScalarMult a (toyScalarMult b ⟨5, 1⟩) = toyScalarMult (a * b) ⟨5, 1⟩ := by
  have hb0 : 0 ≤ b % 19 := Int.emod_nonneg b (by decide)
  have hb1 : b % 19 < 19 := Int.emod_lt_of_pos b (by decide)
  have hm : (b % 19).toNat < 19 := by omega
  rw [toyScalarMult_base, toyScalarMult_base, toyScalarMult_table a _ hm, Int.toNat_of_nonneg hb0,
    Int.mul_emod, Int.emod_emod, ← Int.mul_emod]

theorem toyCurve_commutes : ScalarMultCommutes toyCurve := by
  intro a b
  show toyScalarMult a (toyScalarMult b ⟨5, 1⟩) = toyScalarMult b (toyScalarMult a ⟨5, 1⟩)
  rw [toyScalarMult_mul, toyScalarMult_mul, Int.mul_comm]

/-! ## The heap version refines the list version -/

theorem ValidPtrs.append {heap : Heap} {ptrs : List Nat} (h : ValidPtrs heap ptrs) (ext : Heap) :
    ValidPtrs (heap ++ ext) ptrs := by
  intro p hp
  have := h p hp
  simp only [List.length_append]
  omega

theorem ValidPtrs.drop {heap : Heap} {ptrs : List Nat} (h : ValidPtrs heap ptrs) (i : Nat) :
    ValidPtrs heap (ptrs.drop i) :=
  fun p hp => h p (List.mem_of_mem_drop hp)

theorem deref_append (heap ext : Heap) (ptrs : List Nat) (h : ValidPtrs heap ptrs) :
    deref (heap ++ ext) ptrs = deref heap ptrs := by
  unfold deref
  apply List.map_congr_left
  intro p hp
  have := h p hp
  simp only [List.getD_eq_getElem?_getD]
  rw [List.getElem?_append_left this]

theorem pairUp_short (c : Curve) : ∀ l : List TreeNode, l.length ≤ 1 → pairUp c l = l
  | [], _ => rfl
  | [_], _ => rfl
  | _ :: _ :: _, h => by simp at h

theorem pairLoopH_spec (c : Curve) (nodes : List Nat) (i : Nat) (heap : Heap) (acc : List Nat) :
    ValidPtrs heap nodes → i ≤ nodes.length →
    ∃ (j : Nat) (ext : Heap) (nl : List Nat),
      pairLoopH c nodes i heap acc = some (j, heap ++ ext, acc ++ nl) ∧
      ¬ j < nodes.length - 1 ∧
      ValidPtrs (heap ++ ext) (nl ++ nodes.drop j) ∧
      deref (heap ++ ext) (nl ++ nodes.drop j) = pairUp c (deref heap (nodes.drop i)) := by
  induction i, heap, acc using pairLoopH.induct c nodes with
  | case1 i heap acc h left right hr hl sharedSecret publicKey ih =>
    intro hv hi
    have h1 : i < nodes.length := by omega
    have h2 : i + 1 < nodes.length := by omega
    obtain ⟨j, ext, nl, hres, hj, hval, hd⟩ := ih (hv.append _) (by omega)
    refine ⟨j, [⟨sharedSecret, publicKey⟩] ++ ext, [heap.length] ++ nl, ?_, hj, ?_, ?_⟩
    · rw [pairLoopH, dif_pos h, hl, hr]
      simp only []
      rw [hres, List.append_assoc, List.append_assoc]
    · rw [← List.append_assoc]
      intro p hp
      simp only [List.singleton_append, List.cons_append, List.mem_cons] at hp
      rcases hp with rfl | hp
      · simp only [List.length_append, List.length_singleton]
        omega
      · exact hval p hp
    · rw [← List.append_assoc heap, List.singleton_append, List.cons_append]
      have e : nodes.drop i = nodes[i] :: nodes[i + 1] :: nodes.drop (i + 2) := by
        rw [List.drop_eq_getElem_cons h1, List.drop_eq_getElem_cons h2]
      rw [e]
      simp only [deref, List.map_cons] at hd ⊢
      rw [pairUp, hd]
      have hl2 : heap.getD nodes[i] ⟨0, ⟨0, 0⟩⟩ = left := by
        rw [List.getD_eq_getElem?_getD, hl]; rfl
      have hr2 : heap.getD nodes[i + 1] ⟨0, ⟨0, 0⟩⟩ = right := by
        rw [List.getD_eq_getElem?_getD, hr]; rfl
      have hnew : (heap ++ [(⟨sharedSecret, publicKey⟩ : TreeNode)] ++ ext).getD heap.length
          ⟨0, ⟨0, 0⟩⟩ = combine c left right := by
        rw [List.getD_eq_getElem?_getD, List.append_assoc,
          List.getElem?_append_right (Nat.le_refl _)]
        simp [combine, sharedSecret, publicKey]
      rw [hl2, hr2, hnew]
      congr 2
      exact deref_append heap _ _ (hv.drop _)
  | case2 i heap acc h hno =>
    intro hv hi
    exfalso
    have h1 : i < nodes.length := by omega
    have h2 : i + 1 < nodes.length := by omega
    have v1 := hv nodes[i] (List.getElem_mem h1)
    have v2 := hv nodes[i + 1] (List.getElem_mem h2)
    exact hno heap[nodes[i]] heap[nodes[i + 1]] (List.getElem?_eq_getElem v1)
      (List.getElem?_eq_getElem v2)
  | case3 i heap acc h =>
    intro hv hi
    refine ⟨i, [], [], ?_, h, ?_, ?_⟩
    · rw [pairLoopH, dif_neg h]
      simp
    · simpa using hv.drop i
    · simp only [List.append_nil, List.nil_append]
      rw [pairUp_short]
      simp only [deref, List.length_map, List.length_drop]
      omega

theorem nextLevelH_spec (c : Curve) (heap : Heap) (nodes : List Nat) (hv : ValidPtrs heap nodes) :
    ∃ (ext : Heap) (nl : List Nat), nextLevelH c heap nodes = some (heap ++ ext, nl) ∧
      ValidPtrs (heap ++ ext) nl ∧
      deref (heap ++ ext) nl = nextLevel c (deref heap nodes) := by
  obtain ⟨j, ext, nl, hres, hj, hval, hd⟩ :=
    pairLoopH_spec c nodes 0 heap [] hv (Nat.zero_le _)
  rw [List.nil_append] at hres
  rw [List.drop_zero] at hd
  refine ⟨ext, nl ++ nodes.drop j, ?_, hval, ?_⟩
  · unfold nextLevelH
    rw [hres]
    simp only []
    by_cases h : j < nodes.length
    · rw [dif_pos h, List.drop_eq_getElem_cons h, List.drop_of_length_le (by omega)]
    · rw [dif_neg h, List.drop_of_length_le (by omega), List.append_nil]
  · rw [nextLevel_eq_pairUp, hd]

theorem GenerateTreeKeypairH_spec (c : Curve) :
    ∀ (n : Nat) (heap : Heap) (nodes : List Nat), nodes.length ≤ n → ValidPtrs heap nodes →
      ∃ ext : Heap, GenerateTreeKeypairH c heap nodes =
        some (heap ++ ext, GenerateTreeKeypair c (deref heap nodes)) := by
  intro n
  induction n with
  | zero =>
    intro heap nodes hn _
    have h0 : nodes = [] := List.eq_nil_of_length_eq_zero (by omega)
    subst h0
    refine ⟨[], ?_⟩
    rw [GenerateTreeKeypairH]
    simp [deref, GenerateTreeKeypair_nil]
  | succ n ih =>
    intro heap nodes hn hv
    match nodes, hn, hv with
    | [], _, _ =>
      refine ⟨[], ?_⟩
      rw [GenerateTreeKeypairH]
      simp [deref, GenerateTreeKeypair_nil]
    | [p], _, hv =>
      refine ⟨[], ?_⟩
      have hp : p < heap.length := hv p (by simp)
      rw [GenerateTreeKeypairH]
      simp [deref, GenerateTreeKeypair_single, List.getD_eq_getElem?_getD,
        List.getElem?_eq_getElem hp]
    | p :: q :: rest, hn, hv =>
      obtain ⟨ext, nl, hres, hval, hd⟩ := nextLevelH_spec c heap (p :: q :: rest) hv
      have hlen := nextLevelH_length c heap _ _ _ hres
      obtain ⟨ext2, h2⟩ := ih (heap ++ ext) nl (by
        rw [hlen]; simp only [List.length_cons] at hn ⊢; omega) hval
      refine ⟨ext ++ ext2, ?_⟩
      rw [GenerateTreeKeypairH]
      have h0 : ¬ (p :: q :: rest).length = 0 := by simp
      have h1 : ¬ (p :: q :: rest).length = 1 := by simp
      rw [if_neg h0, dif_neg h1]
      split
      · rename_i hnone
        rw [hres] at hnone
        cases hnone
      · rename_i heap1 nl1 hsome
        rw [hres] at hsome
        simp only [Option.some.injEq, Prod.mk.injEq] at hsome
        obtain ⟨rfl, rfl⟩ := hsome
        rw [h2, hd, List.append_assoc,
          ← GenerateTreeKeypair_step c (deref heap (p :: q :: rest)) (by simp [deref])]

/-! ## Generations -/

theorem combine_isKeypair (c : Curve) (left right : TreeNode) :
    IsKeypair c (combine c left right) := rfl

theorem nextLevel_iterate_keypairs (c : Curve) :
    ∀ (k : Nat) (nodes : List TreeNode), (∀ n ∈ nodes, IsKeypair c n) →
      ∀ n ∈ (nextLevel c)^[k] nodes, IsKeypair c n := by
  intro k
  induction k with
  | zero => intro nodes h; simpa using h
  | succ k ih =>
    intro nodes h
    rw [Function.iterate_succ_apply]
    apply ih
    rw [nextLevel_eq_pairUp]
    exact pairUp_keypairs c nodes h

theorem nextLevel_ne_nil (c : Curve) (nodes : List TreeNode) (h : nodes ≠ []) :
    nextLevel c nodes ≠ [] := by
  intro h0
  have hl := nextLevel_length c nodes
  rw [h0, List.length_nil] at hl
  have : nodes.length ≠ 0 := fun e => h (List.eq_nil_of_length_eq_zero e)
  omega

theorem GenerateTreeKeypair_reaches_single (c : Curve) :
    ∀ (n : Nat) (nodes : List TreeNode), nodes.length ≤ n + 1 → nodes ≠ [] →
      ∃ (k : Nat) (m : TreeNode), k ≤ n ∧ (nextLevel c)^[k] nodes = [m] ∧
        GenerateTreeKeypair c nodes = Except.ok m.PrivateKey := by
  intro n
  induction n with
  | zero =>
    intro nodes hl hne
    match nodes, hl, hne with
    | [m], _, _ => exact ⟨0, m, Nat.le_refl _, rfl, GenerateTreeKeypair_single c m⟩
  | succ n ih =>
    intro nodes hl hne
    match nodes, hl, hne with
    | [m], _, _ => exact ⟨0, m, Nat.zero_le _, rfl, GenerateTreeKeypair_single c m⟩
    | a :: b :: rest, hl, _ =>
      have hlen := nextLevel_length c (a :: b :: rest)
      obtain ⟨k, m, hk, hit, hres⟩ := ih (nextLevel c (a :: b :: rest))
        (by rw [hlen]; simp only [List.length_cons] at hl ⊢; omega)
        (nextLevel_ne_nil c _ (by simp))
      refine ⟨k + 1, m, by omega, ?_, ?_⟩
      · rw [Function.iterate_succ_apply, hit]
      · rw [GenerateTreeKeypair_step c _ (by simp), hres]

/-! ## Keys that a round does not read -/

theorem combine_congr (c : Curve) (a b x y : TreeNode) (hp : a.PrivateKey = x.PrivateKey)
    (hq : b.PublicKey = y.PublicKey) : combine c a b = combine c x y := by
  simp only [combine, hp, hq]

theorem pairUp_set_right (c : Curve) :
    ∀ (l : List TreeNode) (i : Nat) (x : TreeNode) (hi : i < l.length), i % 2 = 1 →
      x.PublicKey = l[i].PublicKey → pairUp c (l.set i x) = pairUp c l
  | [], _, _, hi, _, _ => by simp at hi
  | [_], i, _, hi, hodd, _ => by
    simp only [List.length_singleton] at hi
    omega
  | a :: b :: rest, 0, _, _, hodd, _ => by simp at hodd
  | a :: b :: rest, 1, x, _, _, hx => by
    simp only [List.getElem_cons_succ, List.getElem_cons_zero] at hx
    simp only [List.set_cons_succ, List.set_cons_zero, pairUp]
    rw [combine_congr c a x a b rfl hx]
  | a :: b :: rest, i + 2, x, hi, hodd, hx => by
    simp only [List.getElem_cons_succ] at hx
    simp only [List.set_cons_succ, pairUp]
    rw [pairUp_set_right c rest i x (by simp only [List.length_cons] at hi; omega) (by omega) hx]

theorem pairUp_set_left (c : Curve) :
    ∀ (l : List TreeNode) (i : Nat) (x : TreeNode) (hi : i + 1 < l.length), i % 2 = 0 →
      x.PrivateKey = (l.get ⟨i, by omega⟩).PrivateKey → pairUp c (l.set i x) = pairUp c l
  | [], _, _, hi, _, _ => by simp at hi
  | [_], i, _, hi, _, _ => by simp at hi
  | a :: b :: rest, 0, x, _, _, hx => by
    simp only [List.get_eq_getElem, List.getElem_cons_zero] at hx
    simp only [List.set_cons_zero, pairUp]
    rw [combine_congr c x b a b hx rfl]
  | a :: b :: rest, 1, _, _, hev, _ => by simp at hev
  | a :: b :: rest, i + 2, x, hi, hev, hx => by
    simp only [List.get_eq_getElem, List.getElem_cons_succ] at hx
    simp only [List.set_cons_succ, pairUp]
    rw [pairUp_set_left c rest i x (by simp only [List.length_cons] at hi; omega) (by omega)
      (by simpa using hx)]

theorem GenerateTreeKeypair_last_private (c : Curve) :
    ∀ (n : Nat) (init : List TreeNode) (x y : TreeNode), init.length ≤ n → init ≠ [] →
      x.PublicKey = y.PublicKey →
      GenerateTreeKeypair c (init ++ [x]) = GenerateTreeKeypair c (init ++ [y]) := by
  intro n
  induction n with
  | zero =>
    intro init x y hl hne
    exact absurd (List.eq_nil_of_length_eq_zero (by omega)) hne
  | succ n ih =>
    intro init x y hl hne hxy
    have hpos : init.length ≠ 0 := fun e => hne (List.eq_nil_of_length_eq_zero e)
    rw [GenerateTreeKeypair_pairUp c (init ++ [x]), GenerateTreeKeypair_pairUp c (init ++ [y])]
    by_cases hev : init.length % 2 = 0
    · rw [pairUp_append_even c init [x] hev, pairUp_append_even c init [y] hev]
      have hlen := pairUp_length c init
      apply ih (pairUp c init) x y (by omega) _ hxy
      intro h0
      rw [h0, List.length_nil] at hlen
      omega
    · rcases List.eq_nil_or_concat init with h0 | ⟨init0, z, h0⟩
      · exact absurd h0 hne
      · rw [List.concat_eq_append] at h0
        subst h0
        have hev0 : init0.length % 2 = 0 := by
          simp only [List.length_append, List.length_singleton] at hev
          omega
        rw [List.append_assoc, List.append_assoc, pairUp_append_even c init0 _ hev0,
          pairUp_append_even c init0 _ hev0]
        simp only [List.singleton_append, pairUp]
        rw [combine_congr c z x z y rfl hxy]

/-! ## Coordinates on P-521 are reduced modulo the field prime -/

theorem p521P_pos : 0 < p521P := by decide

theorem p521_base_onCurve : p521IsOnCurve p521G = true := by decide

theorem p521Reduced_zero : p521Reduced ⟨0, 0⟩ :=
  ⟨Int.le_refl _, p521P_pos, Int.le_refl _, p521P_pos⟩

theorem p521Reduced_mod (x y : Int) : p521Reduced ⟨x % p521P, y % p521P⟩ :=
  ⟨Int.emod_nonneg _ (Int.ne_of_gt p521P_pos), Int.emod_lt_of_pos _ p521P_pos,
    Int.emod_nonneg _ (Int.ne_of_gt p521P_pos), Int.emod_lt_of_pos _ p521P_pos⟩

theorem p521Add_reduced (P Q : ElCPoint) (hP : p521Reduced P) (hQ : p521Reduced Q) :
    p521Reduced (p521Add P Q) := by
  unfold p521Add
  split_ifs
  · exact hQ
  · exact hP
  · exact p521Reduced_zero
  · exact p521Reduced_mod _ _
  · exact p521Reduced_mod _ _

theorem p521MulNat_reduced : ∀ (fuel k : Nat) (P : ElCPoint), p521Reduced P →
    p521Reduced (p521MulNat fuel k P)
  | 0, _, _, _ => p521Reduced_zero
  | fuel + 1, k, P, hP => by
    unfold p521MulNat
    split_ifs
    · exact p521Reduced_zero
    · exact p521Add_reduced _ _ hP (p521MulNat_reduced fuel _ _ (p521Add_reduced _ _ hP hP))
    · exact p521Add_reduced _ _ p521Reduced_zero
        (p521MulNat_reduced fuel _ _ (p521Add_reduced _ _ hP hP))

theorem p521IsOnCurve_reduced (P : ElCPoint) (h : p521IsOnCurve P = true) : p521Reduced P := by
  unfold p521IsOnCurve at h
  have h2 := of_decide_eq_true h
  exact ⟨h2.1, h2.2.1, h2.2.2.1, h2.2.2.2.1⟩

/-! ## The claims -/

/-- C1: `GenerateTreeKeypair` on the empty list of nodes returns the error
"empty node list" and no scalar. -/
theorem C1_empty_list_error (c : Curve) :
    GenerateTreeKeypair c [] = Except.error "empty node list" := by
  unfold GenerateTreeKeypair
  rfl

/-- C2: for every node `n`, whatever its two keys are and whatever the curve arithmetic
is, `GenerateTreeKeypair` on `[n]` succeeds with exactly `n.PrivateKey`; the result does
not depend on the curve operations. -/
theorem C2_singleton_returns_private_key (c : Curve) (priv : Int) (pub : ElCPoint) :
    GenerateTreeKeypair c [{ PrivateKey := priv, PublicKey := pub }] = Except.ok priv := by
  unfold GenerateTreeKeypair
  rfl

/-- C3: on four nodes `[N0, N1, N2, N3]` `GenerateTreeKeypair` succeeds with
`deriveShared(deriveShared(N0.priv, N1.pub), (deriveShared(N2.priv, N3.pub))·G)`. -/
theorem C3_four_nodes (c : Curve) (N0 N1 N2 N3 : TreeNode) :
    GenerateTreeKeypair c [N0, N1, N2, N3] =
      Except.ok (GenerateSharedSecret c
        (GenerateSharedSecret c N0.PrivateKey N1.PublicKey)
        (c.ScalarMult (GenerateSharedSecret c N2.PrivateKey N3.PublicKey) c.BasePointGGet)) := by
  rw [GenerateTreeKeypair_eq_reduceRounds c 3 _ (by simp)]
  rfl

/-- C4: on five nodes `[N0, …, N4]` `GenerateTreeKeypair` succeeds with
`deriveShared(R4, N4.pub)`, where `R4` is the four-node result for `[N0, …, N3]`: the
unpaired fifth node is carried through two rounds and combined last, on the public-key
side. -/
theorem C4_five_nodes (c : Curve) (N0 N1 N2 N3 N4 : TreeNode) :
    GenerateTreeKeypair c [N0, N1, N2, N3] = Except.ok (GenerateSharedSecret c
        (GenerateSharedSecret c N0.PrivateKey N1.PublicKey)
        (c.ScalarMult (GenerateSharedSecret c N2.PrivateKey N3.PublicKey) c.BasePointGGet)) ∧
    GenerateTreeKeypair c [N0, N1, N2, N3, N4] =
      Except.ok (GenerateSharedSecret c
        (GenerateSharedSecret c
          (GenerateSharedSecret c N0.PrivateKey N1.PublicKey)
          (c.ScalarMult (GenerateSharedSecret c N2.PrivateKey N3.PublicKey) c.BasePointGGet))
        N4.PublicKey) ∧
    nextLevel c [N0, N1, N2, N3, N4] = [combine c N0 N1, combine c N2 N3, N4] ∧
    nextLevel c [combine c N0 N1, combine c N2 N3, N4] =
      [combine c (combine c N0 N1) (combine c N2 N3), N4] := by
  refine ⟨?_, ?_, ?_, ?_⟩
  · rw [GenerateTreeKeypair_eq_reduceRounds c 3 _ (by simp)]
    rfl
  · rw [GenerateTreeKeypair_eq_reduceRounds c 4 _ (by simp)]
    rfl
  · rw [nextLevel_eq_pairUp]
    rfl
  · rw [nextLevel_eq_pairUp]
    rfl

/-- C5: pairwise symmetry. For private scalars `a`, `b` with public keys `A = a·G`,
`B = b·G`, if the scalar multiplications commute (`a·(b·G) = b·(a·G)`) then
`GenerateSharedSecret a B = GenerateSharedSecret b A`; and where the provider also has
`a·(b·G) = (a·b)·G`, both are the `X` coordinate of `(a·b)·G`. -/
theorem C5_shared_secret_symmetric (c : Curve) (a b : Int)
    (hcomm : c.ScalarMult a (c.ScalarMult b c.BasePointGGet) =
      c.ScalarMult b (c.ScalarMult a c.BasePointGGet)) :
    GenerateSharedSecret c a (c.ScalarMult b c.BasePointGGet) =
      GenerateSharedSecret c b (c.ScalarMult a c.BasePointGGet) ∧
    (c.ScalarMult a (c.ScalarMult b c.BasePointGGet) = c.ScalarMult (a * b) c.BasePointGGet →
      GenerateSharedSecret c a (c.ScalarMult b c.BasePointGGet) =
        (c.ScalarMult (a * b) c.BasePointGGet).X ∧
      GenerateSharedSecret c b (c.ScalarMult a c.BasePointGGet) =
        (c.ScalarMult (a * b) c.BasePointGGet).X) := by
  unfold GenerateSharedSecret
  refine ⟨by rw [hcomm], fun h => ⟨by rw [h], by rw [← hcomm, h]⟩⟩

/-- Witness of C5 on the concrete curve, with `a = 3` and `b = 5`. -/
theorem C5_shared_secret_symmetric_witness :
    GenerateSharedSecret toyCurve 3 (toyCurve.ScalarMult 5 toyCurve.BasePointGGet) =
      GenerateSharedSecret toyCurve 5 (toyCurve.ScalarMult 3 toyCurve.BasePointGGet) ∧
    GenerateSharedSecret toyCurve 3 (toyCurve.ScalarMult 5 toyCurve.BasePointGGet) = 3 :=
  ⟨(C5_shared_secret_symmetric toyCurve 3 5 (by decide)).1, by decide⟩

/-- C6, counterexample: on the concrete curve, whose scalar multiplications commute, the
six keypairs with private keys `1, 1, 1, 1, 1, 2` reduce to `5`, and the reversed list
reduces to `13`. -/
theorem C6_reversal_counterexample :
    ScalarMultCommutes toyCurve ∧ toyNodes6.length = 6 ∧
    (∀ n ∈ toyNodes6, IsKeypair toyCurve n) ∧
    GenerateTreeKeypair toyCurve toyNodes6 = Except.ok 5 ∧
    GenerateTreeKeypair toyCurve toyNodes6.reverse = Except.ok 13 ∧
    GenerateTreeKeypair toyCurve toyNodes6.reverse ≠ GenerateTreeKeypair toyCurve toyNodes6 := by
  have h1 : GenerateTreeKeypair toyCurve toyNodes6 = Except.ok 5 := by
    rw [GenerateTreeKeypair_eq_reduceRounds toyCurve 5 _ (by decide)]
    decide
  have h2 : GenerateTreeKeypair toyCurve toyNodes6.reverse = Except.ok 13 := by
    rw [GenerateTreeKeypair_eq_reduceRounds toyCurve 5 _ (by decide)]
    decide
  refine ⟨toyCurve_commutes, by decide, by decide, h1, h2, ?_⟩
  rw [h1, h2]
  decide

/-- C6, amended: for every list of keypairs whose length is a power of two `2 ^ k` with
`k ≥ 1` (so even and at least 2), over a curve whose scalar multiplications commute,
`GenerateTreeKeypair` on the reversed list returns the same result as on the list. -/
theorem C6_reversal_power_of_two (c : Curve) (hc : ScalarMultCommutes c) (l : List TreeNode)
    (hlen : ∃ k : Nat, 1 ≤ k ∧ l.length = 2 ^ k) (hk : ∀ n ∈ l, IsKeypair c n) :
    l.length % 2 = 0 ∧ 2 ≤ l.length ∧
    GenerateTreeKeypair c l.reverse = GenerateTreeKeypair c l := by
  obtain ⟨k, hk1, hl⟩ := hlen
  obtain ⟨j, rfl⟩ : ∃ j, k = j + 1 := ⟨k - 1, by omega⟩
  have hpos : 0 < 2 ^ j := Nat.pos_pow_of_pos j (by decide)
  refine ⟨?_, ?_, GenerateTreeKeypair_reverse_pow2 c hc (j + 1) l hl hk⟩
  · rw [hl, Nat.pow_succ]; omega
  · rw [hl, Nat.pow_succ]; omega

/-- Witness of C6 (amended) on the concrete curve: the four keypairs with private keys
`1, 2, 3, 4`. -/
theorem C6_reversal_power_of_two_witness :
    toyNodes4.length % 2 = 0 ∧ 2 ≤ toyNodes4.length ∧
    GenerateTreeKeypair toyCurve toyNodes4.reverse = GenerateTreeKeypair toyCurve toyNodes4 :=
  C6_reversal_power_of_two toyCurve toyCurve_commutes toyNodes4 ⟨2, by decide, by decide⟩
    (by decide)

/-- C7: one reduction round on `n ≥ 2` nodes. For every `j < n / 2` the `j`-th entry of
the next-generation list is the node `(s_j, s_j·G)` with
`s_j = GenerateSharedSecret nodes[2j].PrivateKey nodes[2j+1].PublicKey`, and
`GenerateTreeKeypair nodes` is `GenerateTreeKeypair` of the next-generation list. -/
theorem C7_round_pairs (c : Curve) (nodes : List TreeNode) (hn : 2 ≤ nodes.length) :
    (∀ (j : Nat) (hj : j < nodes.length / 2),
      (nextLevel c nodes)[j]? = some
        { PrivateKey := GenerateSharedSecret c
            (nodes.get ⟨2 * j, by omega⟩).PrivateKey (nodes.get ⟨2 * j + 1, by omega⟩).PublicKey,
          PublicKey := c.ScalarMult
            (GenerateSharedSecret c
              (nodes.get ⟨2 * j, by omega⟩).PrivateKey (nodes.get ⟨2 * j + 1, by omega⟩).PublicKey)
            c.BasePointGGet }) ∧
    GenerateTreeKeypair c nodes = GenerateTreeKeypair c (nextLevel c nodes) := by
  refine ⟨fun j hj => ?_, GenerateTreeKeypair_step c nodes hn⟩
  rw [nextLevel_eq_pairUp]
  exact pairUp_get_pair c nodes j _ _ (List.getElem?_eq_getElem (by omega))
    (List.getElem?_eq_getElem (by omega))

/-- Witness of C7 on the concrete curve: the five keypairs with private keys `1, …, 5`. -/
theorem C7_round_pairs_witness :
    nextLevel toyCurve toyNodes5 = [⟨6, ⟨16, 13⟩⟩, ⟨0, ⟨0, 0⟩⟩, ⟨5, ⟨9, 16⟩⟩] ∧
    GenerateTreeKeypair toyCurve toyNodes5 =
      GenerateTreeKeypair toyCurve (nextLevel toyCurve toyNodes5) :=
  ⟨by rw [nextLevel_eq_pairUp]; decide, (C7_round_pairs toyCurve toyNodes5 (by decide)).2⟩

/-- C8: odd-count carry-over. For odd `n ≥ 3` the next-generation list has length
`(n + 1) / 2`, its first `(n - 1) / 2` entries are the paired results and its last entry,
at index `(n - 1) / 2`, is the input's last node `nodes[n - 1]` unchanged. For even
`n ≥ 2` it has length `n / 2` and every entry is a paired result (no carried node). -/
theorem C8_carry_over (c : Curve) (nodes : List TreeNode) (hn : 2 ≤ nodes.length) :
    (nodes.length % 2 = 1 →
      (nextLevel c nodes).length = (nodes.length + 1) / 2 ∧
      (nextLevel c nodes)[(nodes.length - 1) / 2]? = nodes[nodes.length - 1]? ∧
      (nextLevel c nodes).getLast? = nodes.getLast? ∧
      ∀ j, j < (nodes.length - 1) / 2 → ∃ left right, nodes[2 * j]? = some left ∧
        nodes[2 * j + 1]? = some right ∧ (nextLevel c nodes)[j]? = some (combine c left right)) ∧
    (nodes.length % 2 = 0 →
      (nextLevel c nodes).length = nodes.length / 2 ∧
      ∀ j, j < (nextLevel c nodes).length → ∃ left right, nodes[2 * j]? = some left ∧
        nodes[2 * j + 1]? = some right ∧ (nextLevel c nodes)[j]? = some (combine c left right)) := by
  have hlen := nextLevel_length c nodes
  have hpairs : ∀ j, 2 * j + 1 < nodes.length → ∃ left right, nodes[2 * j]? = some left ∧
      nodes[2 * j + 1]? = some right ∧ (nextLevel c nodes)[j]? = some (combine c left right) := by
    intro j hj
    have h1 : 2 * j < nodes.length := by omega
    refine ⟨nodes[2 * j], nodes[2 * j + 1], List.getElem?_eq_getElem h1,
      List.getElem?_eq_getElem hj, ?_⟩
    rw [nextLevel_eq_pairUp]
    exact pairUp_get_pair c nodes j _ _ (List.getElem?_eq_getElem h1)
      (List.getElem?_eq_getElem hj)
  constructor
  · intro hodd
    have hlast : nodes.length - 1 < nodes.length := by omega
    have hcarry : (nextLevel c nodes)[(nodes.length - 1) / 2]? = nodes[nodes.length - 1]? := by
      have e : nodes.length - 1 = 2 * ((nodes.length - 1) / 2) := by omega
      rw [nextLevel_eq_pairUp, List.getElem?_eq_getElem hlast]
      apply pairUp_get_carry c nodes _ _ (by omega)
      rw [← e]
      exact List.getElem?_eq_getElem hlast
    refine ⟨hlen, hcarry, ?_, fun j hj => hpairs j (by omega)⟩
    rw [List.getLast?_eq_getElem?, List.getLast?_eq_getElem?, hlen, ← hcarry]
    congr 1
    omega
  · intro heven
    have hl : (nextLevel c nodes).length = nodes.length / 2 := by rw [hlen]; omega
    exact ⟨hl, fun j hj => hpairs j (by omega)⟩

/-- Witness of C8 on the concrete curve: five keypairs (odd) and four keypairs (even). -/
theorem C8_carry_over_witness :
    nextLevel toyCurve toyNodes5 = [⟨6, ⟨16, 13⟩⟩, ⟨0, ⟨0, 0⟩⟩, ⟨5, ⟨9, 16⟩⟩] ∧
    (nextLevel toyCurve toyNodes5).getLast? = toyNodes5.getLast? ∧
    (nextLevel toyCurve toyNodes4).length = toyNodes4.length / 2 :=
  ⟨by rw [nextLevel_eq_pairUp]; decide,
    ((C8_carry_over toyCurve toyNodes5 (by decide)).1 (by decide)).2.2.1,
    ((C8_carry_over toyCurve toyNodes4 (by decide)).2 (by decide)).1⟩

/-- C9: determinism. Over a heap in which every pointer of `nodes` is allocated,
`GenerateTreeKeypair` returns the result determined by the pointed-to nodes alone
(`GenerateTreeKeypair` of the list of their values); the heap after the call agrees with the
heap before on every allocated address, so the input nodes are unchanged, and a second
call on the same slice returns the identical result. -/
theorem C9_deterministic (c : Curve) (heap : Heap) (nodes : List Nat)
    (hv : ValidPtrs heap nodes) :
    ∃ heap1 heap2 : Heap,
      GenerateTreeKeypairH c heap nodes =
        some (heap1, GenerateTreeKeypair c (deref heap nodes)) ∧
      GenerateTreeKeypairH c heap1 nodes =
        some (heap2, GenerateTreeKeypair c (deref heap nodes)) ∧
      (∀ p, p < heap.length → heap1[p]? = heap[p]?) ∧
      deref heap1 nodes = deref heap nodes := by
  obtain ⟨ext, h1⟩ := GenerateTreeKeypairH_spec c nodes.length heap nodes (Nat.le_refl _) hv
  obtain ⟨ext2, h2⟩ :=
    GenerateTreeKeypairH_spec c nodes.length (heap ++ ext) nodes (Nat.le_refl _) (hv.append ext)
  rw [deref_append heap ext nodes hv] at h2
  exact ⟨heap ++ ext, heap ++ ext ++ ext2, h1, h2,
    fun p hp => List.getElem?_append_left hp, deref_append heap ext nodes hv⟩

/-- Witness of C9 on the concrete curve: the heap holds the five keypairs with private keys
`1, …, 5` and the slice points to them in order. -/
theorem C9_deterministic_witness :
    ∃ heap1 heap2 : Heap,
      GenerateTreeKeypairH toyCurve toyNodes5 [0, 1, 2, 3, 4] =
        some (heap1, GenerateTreeKeypair toyCurve (deref toyNodes5 [0, 1, 2, 3, 4])) ∧
      GenerateTreeKeypairH toyCurve heap1 [0, 1, 2, 3, 4] =
        some (heap2, GenerateTreeKeypair toyCurve (deref toyNodes5 [0, 1, 2, 3, 4])) ∧
      (∀ p, p < toyNodes5.length → heap1[p]? = toyNodes5[p]?) ∧
      deref heap1 [0, 1, 2, 3, 4] = deref toyNodes5 [0, 1, 2, 3, 4] :=
  C9_deterministic toyCurve toyNodes5 [0, 1, 2, 3, 4] (by decide)

/-- C10: with the randomness source supplying a scalar `r`, `0 ≤ r < N`, whenever
`GenerateKeypair` succeeds with `(p, P)` then `p` is the drawn scalar, `p ≠ 0`, `p < N`,
`P = p·G` and `P` passes the on-curve check. -/
theorem C10_generated_keypair_valid (c : Curve) (r p : Int) (P : ElCPoint)
    (h0 : 0 ≤ r) (h1 : r < c.N) (h : GenerateKeypair c (Except.ok r) = Except.ok (p, P)) :
    p = r ∧ p ≠ 0 ∧ 0 < p ∧ p < c.N ∧ P = c.ScalarMult p c.BasePointGGet ∧
      c.IsOnCurveCheck P = true := by
  simp only [GenerateKeypair] at h
  split_ifs at h with hz hc
  simp only [Except.ok.injEq, Prod.mk.injEq] at h
  obtain ⟨rfl, rfl⟩ := h
  refine ⟨rfl, hz, by omega, h1, rfl, ?_⟩
  simpa using hc

/-- Witness of C10 on the concrete curve: the drawn scalar `3` gives `(3, (10, 6))`. -/
theorem C10_generated_keypair_valid_witness :
    GenerateKeypair toyCurve (Except.ok 3) = Except.ok (3, ⟨10, 6⟩) ∧
    ((3 : Int) = 3 ∧ (3 : Int) ≠ 0 ∧ (0 : Int) < 3 ∧ (3 : Int) < toyCurve.N ∧
      (⟨10, 6⟩ : ElCPoint) = toyCurve.ScalarMult 3 toyCurve.BasePointGGet ∧
      toyCurve.IsOnCurveCheck ⟨10, 6⟩ = true) :=
  ⟨by decide, C10_generated_keypair_valid toyCurve 3 3 ⟨10, 6⟩ (by decide) (by decide) (by decide)⟩

/-- C11: the failure cases of `GenerateKeypair`. A failing randomness source returns its
error; otherwise a drawn scalar `0` returns "private key is zero"; otherwise a point `r·G`
that fails the on-curve check returns "public key is not on curve"; in each failure the
private key is `nil` and the point is the zero value; in the one remaining case the call
succeeds with `(r, r·G)`. -/
theorem C11_keypair_failures (c : Curve) (drawn : Except String Int) :
    (∀ e, drawn = Except.error e →
      GenerateKeypairResult c drawn = { privateKey := none, publicKey := none, err := some e } ∧
      GenerateKeypair c drawn = Except.error e) ∧
    (drawn = Except.ok 0 →
      GenerateKeypairResult c drawn =
        { privateKey := none, publicKey := none, err := some "private key is zero" } ∧
      GenerateKeypair c drawn = Except.error "private key is zero") ∧
    (∀ r, drawn = Except.ok r → r ≠ 0 →
      c.IsOnCurveCheck (c.ScalarMult r c.BasePointGGet) = false →
      GenerateKeypairResult c drawn =
        { privateKey := none, publicKey := none, err := some "public key is not on curve" } ∧
      GenerateKeypair c drawn = Except.error "public key is not on curve") ∧
    (∀ r, drawn = Except.ok r → r ≠ 0 →
      c.IsOnCurveCheck (c.ScalarMult r c.BasePointGGet) = true →
      GenerateKeypairResult c drawn =
        { privateKey := some r, publicKey := some (c.ScalarMult r c.BasePointGGet),
          err := none } ∧
      GenerateKeypair c drawn = Except.ok (r, c.ScalarMult r c.BasePointGGet)) ∧
    ((GenerateKeypairResult c drawn).err ≠ none →
      (GenerateKeypairResult c drawn).privateKey = none ∧
      (GenerateKeypairResult c drawn).publicKey = none) := by
  refine ⟨?_, ?_, ?_, ?_, ?_⟩
  · rintro e rfl
    exact ⟨rfl, rfl⟩
  · rintro rfl
    exact ⟨rfl, rfl⟩
  · rintro r rfl hr hc
    simp [GenerateKeypairResult, GenerateKeypair, hr, hc]
  · rintro r rfl hr hc
    simp [GenerateKeypairResult, GenerateKeypair, hr, hc]
  · intro herr
    match drawn with
    | .error e => exact ⟨rfl, rfl⟩
    | .ok r =>
      by_cases h0 : r = 0
      · simp [GenerateKeypairResult, h0]
      · by_cases h1 : c.IsOnCurveCheck (c.ScalarMult r c.BasePointGGet) = true
        · simp [GenerateKeypairResult, h0, h1] at herr
        · simp [GenerateKeypairResult, h0, h1]

/-- Witness of C11 on the concrete curve: the drawn scalar `19` gives `19·G`, the point at
infinity, which fails the on-curve check. -/
theorem C11_keypair_failures_witness :
    GenerateKeypairResult toyCurve (Except.ok 19) =
      { privateKey := none, publicKey := none, err := some "public key is not on curve" } ∧
    GenerateKeypair toyCurve (Except.ok 19) = Except.error "public key is not on curve" :=
  (C11_keypair_failures toyCurve (Except.ok 19)).2.2.1 19 rfl (by decide) (by decide)

/-- C12, counterexample: on P-521 the private scalar `1` (`0 < 1 < N`) and the on-curve
point with `X = 0` give the shared secret `0`, and the on-curve point with `X = N + 1` gives
the shared secret `N + 1`, which is not below the order `N`; on the concrete small curve
the private scalar `7` and the base point give the shared secret `0`. -/
theorem C12_shared_secret_counterexample :
    ((0 : Int) < 1 ∧ (1 : Int) < p521.N) ∧
    (p521.IsOnCurveCheck p521ZeroX = true ∧ GenerateSharedSecret p521 1 p521ZeroX = 0) ∧
    (p521.IsOnCurveCheck p521LargeX = true ∧
      GenerateSharedSecret p521 1 p521LargeX = p521.N + 1 ∧
      ¬ GenerateSharedSecret p521 1 p521LargeX < p521.N) ∧
    ((0 : Int) < 7 ∧ (7 : Int) < toyCurve.N ∧
      toyCurve.IsOnCurveCheck toyCurve.BasePointGGet = true ∧
      GenerateSharedSecret toyCurve 7 toyCurve.BasePointGGet = 0) := by
  refine ⟨by decide, by decide, by decide, by decide⟩

/-- C12, amended: `GenerateSharedSecret k Q` is exactly the `X` coordinate of `k·Q` as the
curve arithmetic returns it, not reduced modulo the order of the base point and not checked
against zero, and it is the `PrivateKey` of the node a round synthesizes; so it is non-zero
and below the order exactly when that coordinate is. On P-521, for an on-curve `Q`, it is a
non-negative integer below the field prime `2^521 - 1`. -/
theorem C12_shared_secret_is_unreduced_x (c : Curve) (k : Int) (Q : ElCPoint)
    (left right : TreeNode) :
    GenerateSharedSecret c k Q = (c.ScalarMult k Q).X ∧
    (combine c left right).PrivateKey = (c.ScalarMult left.PrivateKey right.PublicKey).X ∧
    ((GenerateSharedSecret c k Q ≠ 0 ∧ GenerateSharedSecret c k Q < c.N) ↔
      ((c.ScalarMult k Q).X ≠ 0 ∧ (c.ScalarMult k Q).X < c.N)) ∧
    (p521.IsOnCurveCheck Q = true →
      0 ≤ GenerateSharedSecret p521 k Q ∧ GenerateSharedSecret p521 k Q < p521P) := by
  refine ⟨rfl, rfl, Iff.rfl, fun hQ => ?_⟩
  have h := p521MulNat_reduced k.toNat k.toNat Q (p521IsOnCurve_reduced Q hQ)
  exact ⟨h.1, h.2.1⟩

/-- Witness of C12 (amended): the private scalar `2` and the base point of P-521. -/
theorem C12_shared_secret_is_unreduced_x_witness :
    p521.IsOnCurveCheck p521G = true ∧
    0 ≤ GenerateSharedSecret p521 2 p521G ∧ GenerateSharedSecret p521 2 p521G < p521P :=
  ⟨by decide,
    (C12_shared_secret_is_unreduced_x p521 2 p521G ⟨1, p521G⟩ ⟨1, p521G⟩).2.2.2 (by decide)⟩

/-- C13: key consistency of reduction. Every node a round synthesizes has
`PublicKey = PrivateKey·G`, whatever the input nodes are; hence if every node of the input
list is a keypair, every node of every later generation, synthesized or carried, is one. -/
theorem C13_key_consistency (c : Curve) (nodes : List TreeNode)
    (hk : ∀ n ∈ nodes, IsKeypair c n) :
    (∀ (l : List TreeNode) (j : Nat) (n : TreeNode), j < l.length / 2 →
      (nextLevel c l)[j]? = some n → n.PublicKey = c.ScalarMult n.PrivateKey c.BasePointGGet) ∧
    (∀ (k : Nat) (n : TreeNode), n ∈ (nextLevel c)^[k] nodes →
      n.PublicKey = c.ScalarMult n.PrivateKey c.BasePointGGet) := by
  refine ⟨fun l j n hj hn => ?_, fun k n hn => nextLevel_iterate_keypairs c k nodes hk n hn⟩
  have h1 : 2 * j < l.length := by omega
  have h2 : 2 * j + 1 < l.length := by omega
  have h := pairUp_get_pair c l j _ _ (List.getElem?_eq_getElem h1) (List.getElem?_eq_getElem h2)
  rw [nextLevel_eq_pairUp, h] at hn
  cases hn
  rfl

/-- Witness of C13 on the concrete curve: the five keypairs with private keys `1, …, 5`;
their second generation is `[(0, O), (5, 5·G)]`. -/
theorem C13_key_consistency_witness :
    (nextLevel toyCurve)^[2] toyNodes5 = [⟨0, ⟨0, 0⟩⟩, ⟨5, ⟨9, 16⟩⟩] ∧
    ∀ n : TreeNode, n ∈ (nextLevel toyCurve)^[2] toyNodes5 →
      n.PublicKey = toyCurve.ScalarMult n.PrivateKey toyCurve.BasePointGGet :=
  ⟨by simp only [Function.iterate_succ, Function.iterate_zero, Function.comp_apply, id_eq,
      nextLevel_eq_pairUp]; decide,
    (C13_key_consistency toyCurve toyNodes5 (by decide)).2 2⟩

/-- C14: termination. For `n ≥ 2` nodes the next-generation list has length `⌈n / 2⌉`, which
is at least 1 and less than `n`; and for every non-empty input, after fewer than `n` rounds
the list is a single node `m` and `GenerateTreeKeypair` returns `m.PrivateKey`. -/
theorem C14_termination (c : Curve) (nodes : List TreeNode) (hne : nodes ≠ []) :
    (2 ≤ nodes.length →
      (nextLevel c nodes).length = (nodes.length + 1) / 2 ∧
      2 * (nextLevel c nodes).length = nodes.length + nodes.length % 2 ∧
      1 ≤ (nextLevel c nodes).length ∧ (nextLevel c nodes).length < nodes.length) ∧
    ∃ (k : Nat) (m : TreeNode), k < nodes.length ∧ (nextLevel c)^[k] nodes = [m] ∧
      GenerateTreeKeypair c nodes = Except.ok m.PrivateKey := by
  constructor
  · intro h2
    have hlen := nextLevel_length c nodes
    omega
  · have hpos : nodes.length ≠ 0 := fun e => hne (List.eq_nil_of_length_eq_zero e)
    obtain ⟨k, m, hk, hit, hres⟩ :=
      GenerateTreeKeypair_reaches_single c (nodes.length - 1) nodes (by omega) hne
    exact ⟨k, m, by omega, hit, hres⟩

/-- Witness of C14 on the concrete curve: the five keypairs with private keys `1, …, 5`. -/
theorem C14_termination_witness :
    (2 ≤ toyNodes5.length →
      (nextLevel toyCurve toyNodes5).length = (toyNodes5.length + 1) / 2 ∧
      2 * (nextLevel toyCurve toyNodes5).length = toyNodes5.length + toyNodes5.length % 2 ∧
      1 ≤ (nextLevel toyCurve toyNodes5).length ∧
      (nextLevel toyCurve toyNodes5).length < toyNodes5.length) ∧
    ∃ (k : Nat) (m : TreeNode), k < toyNodes5.length ∧ (nextLevel toyCurve)^[k] toyNodes5 = [m] ∧
      GenerateTreeKeypair toyCurve toyNodes5 = Except.ok m.PrivateKey :=
  C14_termination toyCurve toyNodes5 (by decide)

/-- C15: `GenerateTreeKeypair` fails only on the empty list. On every non-empty list it
returns a scalar and no error, and the next-generation list of a non-empty list is not
empty, so the error branch is not reached in a recursive call; an error result means the
input was empty and the error is "empty node list". -/
theorem C15_fails_only_on_empty (c : Curve) (nodes : List TreeNode) (hne : nodes ≠ []) :
    (∃ s : Int, GenerateTreeKeypair c nodes = Except.ok s) ∧
    (∀ e : String, GenerateTreeKeypair c nodes ≠ Except.error e) ∧
    (∀ k : Nat, (nextLevel c)^[k] nodes ≠ []) ∧
    (∀ (l : List TreeNode) (e : String), GenerateTreeKeypair c l = Except.error e →
      l = [] ∧ e = "empty node list") := by
  have hreach : ∀ l : List TreeNode, l ≠ [] → ∃ s : Int, GenerateTreeKeypair c l = Except.ok s := by
    intro l hl
    have hpos : l.length ≠ 0 := fun e => hl (List.eq_nil_of_length_eq_zero e)
    obtain ⟨_, m, _, _, hres⟩ :=
      GenerateTreeKeypair_reaches_single c (l.length - 1) l (by omega) hl
    exact ⟨m.PrivateKey, hres⟩
  refine ⟨hreach nodes hne, ?_, ?_, ?_⟩
  · intro e he
    obtain ⟨s, hs⟩ := hreach nodes hne
    rw [hs] at he
    cases he
  · intro k
    induction k with
    | zero => exact hne
    | succ k ih =>
      rw [Function.iterate_succ_apply']
      exact nextLevel_ne_nil c _ ih
  · intro l e he
    by_cases hl : l = []
    · subst hl
      rw [GenerateTreeKeypair_nil] at he
      cases he
      exact ⟨rfl, rfl⟩
    · obtain ⟨s, hs⟩ := hreach l hl
      rw [hs] at he
      cases he

/-- Witness of C15 on the concrete curve: the six keypairs with private keys
`1, 1, 1, 1, 1, 2`. -/
theorem C15_fails_only_on_empty_witness :
    ∃ s : Int, GenerateTreeKeypair toyCurve toyNodes6 = Except.ok s :=
  (C15_fails_only_on_empty toyCurve toyNodes6 (by decide)).1

/-- C16: for every `k ≥ 1` and every list of `2 ^ k` keypairs, over a curve whose scalar
multiplications commute, the next generation of the reversed list is the reversal of the
next generation of the list, and `GenerateTreeKeypair` on the reversed list equals
`GenerateTreeKeypair` on the list. -/
theorem C16_reversal_two_power (c : Curve) (hc : ScalarMultCommutes c) (k : Nat) (hk : 1 ≤ k)
    (l : List TreeNode) (hl : l.length = 2 ^ k) (hkp : ∀ n ∈ l, IsKeypair c n) :
    nextLevel c l.reverse = (nextLevel c l).reverse ∧
    GenerateTreeKeypair c l.reverse = GenerateTreeKeypair c l := by
  obtain ⟨j, rfl⟩ : ∃ j, k = j + 1 := ⟨k - 1, by omega⟩
  have hev : l.length % 2 = 0 := by rw [hl, Nat.pow_succ]; omega
  refine ⟨?_, GenerateTreeKeypair_reverse_pow2 c hc (j + 1) l hl hkp⟩
  rw [nextLevel_eq_pairUp, nextLevel_eq_pairUp]
  exact pairUp_reverse c hc l hev hkp

/-- Witness of C16 on the concrete curve: the eight keypairs with private keys `1, …, 8`. -/
theorem C16_reversal_two_power_witness :
    nextLevel toyCurve toyNodes8.reverse = (nextLevel toyCurve toyNodes8).reverse ∧
    GenerateTreeKeypair toyCurve toyNodes8.reverse = GenerateTreeKeypair toyCurve toyNodes8 :=
  C16_reversal_two_power toyCurve toyCurve_commutes 3 (by decide) toyNodes8 (by decide)
    (by decide)

/-- C17: unused key halves. For a list of at least two nodes, neither the next-generation
list nor the result of `GenerateTreeKeypair` changes when (a) the `PrivateKey` of a node at
an odd index is replaced by any scalar, or (b) the `PublicKey` of a node at an even index
that has a right neighbour is replaced by any point; and (c) the result does not change
when the `PrivateKey` of the last node of a list of odd length is replaced. -/
theorem C17_unused_key_halves (c : Curve) (nodes : List TreeNode) (hn : 2 ≤ nodes.length) :
    (∀ (i : Nat) (hi : i < nodes.length) (k : Int), i % 2 = 1 →
      nextLevel c (nodes.set i { PrivateKey := k, PublicKey := nodes[i].PublicKey }) =
        nextLevel c nodes ∧
      GenerateTreeKeypair c (nodes.set i { PrivateKey := k, PublicKey := nodes[i].PublicKey }) =
        GenerateTreeKeypair c nodes) ∧
    (∀ (i : Nat) (hi : i + 1 < nodes.length) (Q : ElCPoint), i % 2 = 0 →
      nextLevel c (nodes.set i
          { PrivateKey := (nodes.get ⟨i, by omega⟩).PrivateKey, PublicKey := Q }) =
        nextLevel c nodes ∧
      GenerateTreeKeypair c (nodes.set i
          { PrivateKey := (nodes.get ⟨i, by omega⟩).PrivateKey, PublicKey := Q }) =
        GenerateTreeKeypair c nodes) ∧
    (∀ k : Int, nodes.length % 2 = 1 →
      GenerateTreeKeypair c (nodes.set (nodes.length - 1)
          { PrivateKey := k, PublicKey := (nodes.get ⟨nodes.length - 1, by omega⟩).PublicKey }) =
        GenerateTreeKeypair c nodes) := by
  refine ⟨fun i hi k hodd => ?_, fun i hi Q hev => ?_, fun k _ => ?_⟩
  · have h : nextLevel c (nodes.set i { PrivateKey := k, PublicKey := nodes[i].PublicKey }) =
        nextLevel c nodes := by
      rw [nextLevel_eq_pairUp, nextLevel_eq_pairUp]
      exact pairUp_set_right c nodes i _ hi hodd rfl
    refine ⟨h, ?_⟩
    rw [GenerateTreeKeypair_step c _ (by simpa using hn), h, ← GenerateTreeKeypair_step c _ hn]
  · have h : nextLevel c (nodes.set i
          { PrivateKey := (nodes.get ⟨i, by omega⟩).PrivateKey, PublicKey := Q }) =
        nextLevel c nodes := by
      rw [nextLevel_eq_pairUp, nextLevel_eq_pairUp]
      exact pairUp_set_left c nodes i _ hi hev rfl
    refine ⟨h, ?_⟩
    rw [GenerateTreeKeypair_step c _ (by simpa using hn), h, ← GenerateTreeKeypair_step c _ hn]
  · rcases List.eq_nil_or_concat nodes with h0 | ⟨init, x, h0⟩
    · subst h0
      simp at hn
    · rw [List.concat_eq_append] at h0
      subst h0
      have hlen : (init ++ [x]).length - 1 = init.length := by simp
      have hinit : init ≠ [] := by
        intro h0
        subst h0
        simp at hn
      have hset : ∀ y : TreeNode, (init ++ [x]).set ((init ++ [x]).length - 1) y = init ++ [y] := by
        intro y
        rw [hlen, List.set_append_right _ _ (Nat.le_refl _)]
        simp
      rw [hset]
      apply GenerateTreeKeypair_last_private c init.length init _ x (Nat.le_refl _) hinit
      simp [List.get_eq_getElem]

/-- Witness of C17 on the concrete curve: the three keypairs with private keys `1, 1, 2`
reduce to `7`, also after the private key of node 1 or of node 2 is replaced by `11`, or the
public key of node 0 by `5·G = (9, 16)`. -/
theorem C17_unused_key_halves_witness :
    GenerateTreeKeypair toyCurve toyNodes3 = Except.ok 7 ∧
    GenerateTreeKeypair toyCurve [⟨1, ⟨5, 1⟩⟩, ⟨11, ⟨5, 1⟩⟩, ⟨2, ⟨6, 3⟩⟩] =
      GenerateTreeKeypair toyCurve toyNodes3 ∧
    GenerateTreeKeypair toyCurve [⟨1, ⟨9, 16⟩⟩, ⟨1, ⟨5, 1⟩⟩, ⟨2, ⟨6, 3⟩⟩] =
      GenerateTreeKeypair toyCurve toyNodes3 ∧
    GenerateTreeKeypair toyCurve [⟨1, ⟨5, 1⟩⟩, ⟨1, ⟨5, 1⟩⟩, ⟨11, ⟨6, 3⟩⟩] =
      GenerateTreeKeypair toyCurve toyNodes3 :=
  ⟨by rw [GenerateTreeKeypair_eq_reduceRounds toyCurve 2 _ (by decide)]; decide,
    ((C17_unused_key_halves toyCurve toyNodes3 (by decide)).1 1 (by decide) 11 (by decide)).2,
    ((C17_unused_key_halves toyCurve toyNodes3 (by decide)).2.1 0 (by decide) ⟨9, 16⟩
      (by decide)).2,
    (C17_unused_key_halves toyCurve toyNodes3 (by decide)).2.2 11 (by decide)⟩

end TreeEcdh
